import Mathlib

/-
Verification of the heart-rate signal-processing pipeline
(`process_heartbeat` and `safe_session_id` in `heartbeat_api.py`).

The pipeline is embedded shallowly over exact rationals (ℚ):
float samples become rationals, numpy arrays become lists, and the
Python control flow becomes Lean definitions.  Two external library
calls are modelled at their documented interface:

* `scipy.signal.hilbert` (envelope extraction) is kept as a function
  parameter `envOf` together with its documented length-preservation
  contract, since its FFT-based values are transcendental;
* `scipy.signal.filtfilt` is modelled structurally (odd padding of
  length `3 * max (len a) (len b)`, forward pass, backward pass,
  central slice, and the `ValueError` raised when the input is not
  longer than the pad length); the initial-condition seeding
  (`lfilter_zi`) is omitted, which changes values but neither the
  failure condition, the fallback control flow, nor any length.

Float constants `1e-12`, `0.05`, `0.2`, `0.3`, `0.6` are embedded as
the exact rationals they denote in the source text; for the integer
truncations `int(Fs * 0.05)` and `int(0.2 * Fs)` the double-precision
products never round across an integer boundary for integer `Fs`
(relative error of the constants is below half an ulp), so they equal
the exact integer divisions `Fs / 20` and `Fs / 5`.
-/

namespace Heartbeat

/-! ## Rounding (Python `round`, banker's rounding) -/

/-- Python `round` to an integer: round half to even. -/
def roundHalfEven (x : ℚ) : ℤ :=
  let n := ⌊x⌋
  let f := x - n
  if f < 1 / 2 then n
  else if 1 / 2 < f then n + 1
  else if n % 2 = 0 then n else n + 1

/-- Python `round(x, k)`: round to `k` decimal places. -/
def roundTo (k : ℕ) (x : ℚ) : ℚ := (roundHalfEven (x * 10 ^ k) : ℚ) / 10 ^ k

/-! ## Normalizer (lines 47–50) -/

/-- `np.max(np.abs(y))`: peak absolute amplitude.  For a nonempty list
this is the maximum of the absolute values (folding `max` from `0` is
harmless since absolute values are nonnegative). -/
def maxAbs (y : List ℚ) : ℚ := (y.map (fun v => |v|)).foldr max 0

/-- The constant `1e-12` added to an all-zero waveform. -/
def epsSilence : ℚ := 1 / 10 ^ 12

/-- Lines 47–49: if the peak absolute amplitude is zero, add `1e-12`
to every sample. -/
def preNormalize (y : List ℚ) : List ℚ :=
  if maxAbs y = 0 then y.map (fun v => v + epsSilence) else y

/-- Line 50: divide every sample by the (recomputed) peak absolute
amplitude. -/
def normalize (y : List ℚ) : List ℚ :=
  (preNormalize y).map (fun v => v / maxAbs (preNormalize y))

/-! ## `scipy.signal.lfilter` (the single-pass fallback, line 64) -/

/-- One output sample of the direct-form difference equation
`a[0]*y[n] = Σ b[i]*x[n-i] - Σ_{i≥1} a[i]*y[n-i]`, given the already
consumed inputs (most recent first) and already produced outputs
(most recent first).  Out-of-range indices read as `0`, which is
exactly scipy's zero initial condition (`zi = None`). -/
def lfilterNext (b a : List ℚ) (xsRev ysRev : List ℚ) : ℚ :=
  (((List.range b.length).map (fun i => b.getD i 0 * xsRev.getD i 0)).sum -
    ((List.range a.length).map
      (fun i => if i = 0 then 0 else a.getD i 0 * ysRev.getD (i - 1) 0)).sum) /
    a.getD 0 0

/-- Tail-recursive accumulation of `lfilter` outputs. -/
def lfilterAux (b a : List ℚ) : List ℚ → List ℚ → List ℚ → List ℚ
  | _, ysRev, [] => ysRev.reverse
  | xsRev, ysRev, xn :: rest =>
    let xsRev' := xn :: xsRev
    lfilterAux b a xsRev' (lfilterNext b a xsRev' ysRev :: ysRev) rest

/-- `scipy.signal.lfilter(b, a, x)` with zero initial conditions. -/
def lfilter (b a x : List ℚ) : List ℚ := lfilterAux b a [] [] x

/-! ## `scipy.signal.filtfilt` (zero-phase filtering, line 60) -/

/-- `scipy.signal._arraytools.odd_ext`: extend `x` by `p` samples on
each side, reflected through the end values
(`2*x[0] - x[p..1]` on the left, `2*x[-1] - x[-2..-1-p]` on the right). -/
def oddExt (x : List ℚ) (p : ℕ) : List ℚ :=
  let x0 := x.headD 0
  let xe := x.getLastD 0
  ((List.range p).map (fun i => 2 * x0 - x.getD (p - i) 0)) ++ x ++
    ((List.range p).map (fun i => 2 * xe - x.getD (x.length - 2 - i) 0))

/-- `scipy.signal.filtfilt(b, a, x)` with the default
`padtype="odd"`, `padlen = 3 * max(len(a), len(b))`: raises
(`none`) iff `len(x) <= padlen`; otherwise odd-extends, filters
forward, filters the reversal, re-reverses and takes the central
slice.  (The `lfilter_zi` seeding is omitted; see the header note.) -/
def filtfiltModel (b a x : List ℚ) : Option (List ℚ) :=
  let padlen := 3 * max a.length b.length
  if x.length ≤ padlen then none
  else
    let ext := oddExt x padlen
    let fwd := lfilter b a ext
    let bwd := (lfilter b a fwd.reverse).reverse
    some ((bwd.drop padlen).take x.length)

/-- Lines 59–64: try zero-phase filtering; on failure fall back to a
single forward pass with the same coefficients. -/
def filterStep (b a y : List ℚ) : List ℚ :=
  match filtfiltModel b a y with
  | some r => r
  | none => lfilter b a y

/-! ## Envelope smoothing (lines 72–75) -/

/-- Lines 72–74: `window_len = int(Fs * 0.05)`, clamped below by 1.
For positive integer `Fs` the float truncation equals `Fs / 20`. -/
def windowLen (Fs : ℕ) : ℕ :=
  let w := Fs / 20
  if w < 1 then 1 else w

/-- `np.convolve(u, v)` (mode `"full"`): length `M + N - 1`,
`c[k] = Σ_i u[i] * v[k-i]`. -/
def convolveFull (u v : List ℚ) : List ℚ :=
  (List.range (u.length + v.length - 1)).map (fun k =>
    ((List.range (k + 1)).map (fun i => u.getD i 0 * v.getD (k - i) 0)).sum)

/-- `np.convolve(u, v, mode="same")`: the central `max(M, N)` samples
of the full convolution, starting at offset `(min(M, N) - 1) / 2`. -/
def convolveSame (u v : List ℚ) : List ℚ :=
  ((convolveFull u v).drop ((min u.length v.length - 1) / 2)).take
    (max u.length v.length)

/-- Line 75: moving-average smoothing of the envelope with the boxcar
`np.ones(window_len) / window_len` in mode `"same"`. -/
def smoothEnv (Fs : ℕ) (env : List ℚ) : List ℚ :=
  let w := windowLen Fs
  convolveSame env (List.replicate w ((1 : ℚ) / w))

/-! ## `scipy.signal.find_peaks` (line 79)

Modelled from scipy's `_local_maxima_1d` (plateau-aware strict local
maxima, midpoints, first and last samples excluded), the `height`
selection (keep peaks whose sample is at least the required height),
and `_select_by_peak_distance` (process peaks from highest to lowest
priority, where priority is the peak's sample value, and suppress every
other peak closer than `distance`; numpy's `argsort` tie order is
unspecified, modelled here as a stable sort, so ties are processed
later-index first). -/

/-- `np.max` of a nonempty list (`0` for the empty list, on which
numpy would raise). -/
def maxList : List ℚ → ℚ
  | [] => 0
  | h :: t => t.foldl max h

/-- Index of the first sample at or after `j` that either reaches
`iMax` or differs from the plateau value `v` (the inner `i_ahead`
scan of `_local_maxima_1d`). -/
def plateauEnd (x : List ℚ) (iMax : ℕ) (v : ℚ) : ℕ → ℕ → ℕ
  | 0, j => j
  | fuel + 1, j =>
    if j < iMax ∧ x.getD j 0 = v then plateauEnd x iMax v fuel (j + 1) else j

/-- Main scan of `_local_maxima_1d` from index `i`: emits the midpoint
of each maximal plateau that is strictly above both neighbours. -/
def localMaximaAux (x : List ℚ) (iMax : ℕ) : ℕ → ℕ → List ℕ
  | 0, _ => []
  | fuel + 1, i =>
    if i < iMax then
      if x.getD (i - 1) 0 < x.getD i 0 then
        if x.getD (plateauEnd x iMax (x.getD i 0) x.length (i + 1)) 0 < x.getD i 0 then
          (i + (plateauEnd x iMax (x.getD i 0) x.length (i + 1) - 1)) / 2 ::
            localMaximaAux x iMax fuel (plateauEnd x iMax (x.getD i 0) x.length (i + 1) + 1)
        else localMaximaAux x iMax fuel (i + 1)
      else localMaximaAux x iMax fuel (i + 1)
    else []

/-- All local maxima of `x` (scipy `_local_maxima_1d`). -/
def localMaxima (x : List ℚ) : List ℕ :=
  localMaximaAux x (x.length - 1) x.length 1

/-- Distance between two sample indices. -/
def natDist (a b : ℕ) : ℕ := max a b - min a b

/-- Mark as removed every peak other than `j` whose index lies closer
than `d` to peak `j` (one round of `_select_by_peak_distance`; the
directional scans of the scipy loop cover exactly these peaks because
the peak list is ascending). -/
def suppressAround (peaks : List ℕ) (d : ℕ) (j : ℕ) (keep : List Bool) : List Bool :=
  (List.range keep.length).map (fun k =>
    if k ≠ j ∧ natDist (peaks.getD k 0) (peaks.getD j 0) < d then false
    else keep.getD k true)

/-- One iteration of the `_select_by_peak_distance` loop: peaks
already removed are skipped. -/
def distStep (peaks : List ℕ) (d : ℕ) (keep : List Bool) (j : ℕ) : List Bool :=
  if keep.getD j true then suppressAround peaks d j keep else keep

/-- Stable insertion (ascending by priority) used to model
`np.argsort` of the priorities. -/
def insertAsc (pri : List ℚ) (j : ℕ) : List ℕ → List ℕ
  | [] => [j]
  | k :: t => if pri.getD j 0 < pri.getD k 0 then j :: k :: t else k :: insertAsc pri j t

/-- `np.argsort(priority)` as a stable sort of the index range. -/
def argsortAsc (pri : List ℚ) : List ℕ :=
  (List.range pri.length).foldl (fun acc j => insertAsc pri j acc) []

/-- `_select_by_peak_distance(peaks, priority, distance)`: the keep
mask after processing all peaks from highest to lowest priority. -/
def selectByPeakDistance (peaks : List ℕ) (pri : List ℚ) (d : ℕ) : List Bool :=
  ((argsortAsc pri).reverse).foldl (distStep peaks d)
    (List.replicate peaks.length true)

/-- `peaks[keep]`: retain the entries whose mask bit is true. -/
def keepFilter : List ℕ → List Bool → List ℕ
  | [], _ => []
  | _ :: _, [] => []
  | p :: ps, bb :: bs => if bb then p :: keepFilter ps bs else keepFilter ps bs

/-- The local maxima that pass the height selection. -/
def heightPeaks (x : List ℚ) (h : ℚ) : List ℕ :=
  (localMaxima x).filter (fun p => decide (h ≤ x.getD p 0))

/-- `scipy.signal.find_peaks(x, height=h, distance=d)` (scipy applies
the height selection before the distance selection; it also raises if
`d < 1`, which the claims never exercise). -/
def findPeaks (x : List ℚ) (h : ℚ) (d : ℕ) : List ℕ :=
  keepFilter (heightPeaks x h)
    (selectByPeakDistance (heightPeaks x h)
      ((heightPeaks x h).map (fun p => x.getD p 0)) d)

/-- Lines 78–79: `threshold = 0.3 * np.max(env_smooth)` and
`find_peaks(env_smooth, height=threshold, distance=int(0.2 * Fs))`;
the float truncation `int(0.2 * Fs)` equals `Fs / 5` for integer `Fs`. -/
def detectPeaks (Fs : ℕ) (envS : List ℚ) : List ℕ :=
  findPeaks envS (3 / 10 * maxList envS) (Fs / 5)

/-! ## Beat grouping (lines 82–85) -/

/-- One iteration of the grouping loop, on the reversed accumulator
(most recently kept beat first): keep `p` if nothing is kept yet or
`p` is more than `0.6 * Fs` after the last kept beat. -/
def groupStep (Fs : ℕ) (acc : List ℕ) (p : ℕ) : List ℕ :=
  match acc with
  | [] => [p]
  | last :: _ => if (3 * Fs : ℚ) / 5 < (p : ℚ) - (last : ℚ) then p :: acc else acc

/-- Lines 82–85: greedy grouping of raw peaks into one beat per
cardiac cycle. -/
def groupBeats (Fs : ℕ) (peaks : List ℕ) : List ℕ :=
  (peaks.foldl (groupStep Fs) []).reverse

/-! ## Rate estimation and result assembly (lines 51, 87–88, 116–128) -/

/-- Line 88: `bpm = len(beats) / (duration / 60) if duration > 0 else 0.0`. -/
def bpmOf (count : ℕ) (duration : ℚ) : ℚ :=
  if 0 < duration then (count : ℚ) / (duration / 60) else 0

/-- The metadata record assembled at lines 116–128 (the three file
references are constant strings and carry no analyzed content). -/
structure Meta where
  Fs : ℕ
  duration_sec : ℚ
  threshold : ℚ
  raw_peaks : ℕ
  beats_grouped : ℕ
  bpm : ℚ
  deriving Repr, DecidableEq

/-- The analysis pipeline of `process_heartbeat` (lines 44–128),
from the mono waveform `y0` and sample rate `Fs` to the metadata
record.  `envOf` stands for `np.abs(hilbert(.))` at line 71, kept as
a parameter (see the header note); file writing and plotting are side
effects outside the analyzed dataflow. -/
def process (envOf : List ℚ → List ℚ) (b a : List ℚ) (y0 : List ℚ) (Fs : ℕ) :
    Meta :=
  let y := normalize y0
  let duration : ℚ := (y.length : ℚ) / (Fs : ℚ)
  let yFilt := filterStep b a y
  let envS := smoothEnv Fs (envOf yFilt)
  let thr := 3 / 10 * maxList envS
  let peaks := findPeaks envS thr (Fs / 5)
  let beats := groupBeats Fs peaks
  { Fs := Fs
    duration_sec := roundTo 2 duration
    threshold := thr
    raw_peaks := peaks.length
    beats_grouped := beats.length
    bpm := roundTo 1 (bpmOf beats.length duration) }

/-! ## Session-id sanitizer (lines 24–27) -/

/-- The allowed alphabet `"0123456789abcdef"`. -/
def hexDigits : List Char := "0123456789abcdef".data

/-- Lines 24–27: `safe_session_id` raises `ValueError` (`none`) for
an empty id or any character outside the lowercase hex alphabet, and
otherwise returns the id unchanged. -/
def safe_session_id (sid : String) : Option String :=
  if sid = "" then none
  else if sid.data.all (fun c => hexDigits.contains c) then some sid
  else none

/-! ## Helper lemmas -/

lemma maxAbs_nonneg (y : List ℚ) : 0 ≤ maxAbs y := by
  unfold maxAbs
  induction y with
  | nil => simp
  | cons h t ih =>
    simp only [List.map_cons, List.foldr_cons]
    exact le_max_of_le_right ih

lemma foldr_max_map_div (p : ℚ) (hp : 0 < p) (l : List ℚ) :
    (l.map (fun v => v / p)).foldr max 0 = l.foldr max 0 / p := by
  induction l with
  | nil => simp
  | cons h t ih =>
    simp only [List.map_cons, List.foldr_cons, ih]
    rw [max_div_div_right hp.le]

lemma maxAbs_map_div (y : List ℚ) (p : ℚ) (hp : 0 < p) :
    maxAbs (y.map (fun v => v / p)) = maxAbs y / p := by
  unfold maxAbs
  rw [List.map_map]
  have h1 : ((fun v => |v|) ∘ fun v => v / p) = fun v => |v| / p := by
    funext v
    simp [abs_div, abs_of_pos hp]
  rw [h1]
  have h2 : (y.map fun v => |v| / p) = (y.map fun v => |v|).map fun v => v / p := by
    rw [List.map_map]; rfl
  rw [h2, foldr_max_map_div p hp]

lemma foldr_max_replicate (n : ℕ) (c : ℚ) (hc : 0 ≤ c) (hn : 0 < n) :
    (List.replicate n c).foldr max 0 = c := by
  induction n with
  | zero => exact absurd hn (lt_irrefl 0)
  | succ m ih =>
    rw [List.replicate_succ, List.foldr_cons]
    rcases Nat.eq_zero_or_pos m with hm | hm
    · subst hm; simpa using max_eq_left hc
    · rw [ih hm, max_self]

lemma epsSilence_pos : 0 < epsSilence := by norm_num [epsSilence]

lemma maxAbs_replicate_zero (n : ℕ) : maxAbs (List.replicate n (0 : ℚ)) = 0 := by
  unfold maxAbs
  rw [List.map_replicate, abs_zero]
  induction n with
  | zero => simp
  | succ m ih => rw [List.replicate_succ, List.foldr_cons, ih, max_self]

/-! ### Grouping lemmas -/

lemma groupStep_nil (Fs p : ℕ) : groupStep Fs [] p = [p] := rfl

lemma chain_foldl_group (Fs : ℕ) (l : List ℕ) :
    ∀ acc : List ℕ,
      List.Chain' (fun (a b : ℕ) => (3 * Fs : ℚ) / 5 < (a : ℚ) - (b : ℚ)) acc →
      List.Chain' (fun (a b : ℕ) => (3 * Fs : ℚ) / 5 < (a : ℚ) - (b : ℚ))
        (l.foldl (groupStep Fs) acc) := by
  induction l with
  | nil => intro acc h; exact h
  | cons p t ih =>
    intro acc h
    rw [List.foldl_cons]
    apply ih
    cases acc with
    | nil => simp [groupStep]
    | cons last tt =>
      rw [groupStep]
      split
      · exact List.chain'_cons.mpr ⟨by assumption, h⟩
      · exact h

lemma getLast_foldl_group (Fs : ℕ) (l : List ℕ) :
    ∀ (last : ℕ) (t : List ℕ),
      (l.foldl (groupStep Fs) (last :: t)).getLast? = (last :: t).getLast? := by
  induction l with
  | nil => intro last t; rfl
  | cons p tl ih =>
    intro last t
    rw [List.foldl_cons, groupStep]
    split
    · rw [ih p (last :: t), List.getLast?_cons_cons]
    · exact ih last t

lemma foldl_group_sublist (Fs : ℕ) (l : List ℕ) :
    ∀ acc : List ℕ,
      List.Sublist ((l.foldl (groupStep Fs) acc).reverse) (acc.reverse ++ l) := by
  induction l with
  | nil => intro acc; simp
  | cons p t ih =>
    intro acc
    rw [List.foldl_cons]
    refine (ih (groupStep Fs acc p)).trans ?_
    cases acc with
    | nil => simp [groupStep]
    | cons last tt =>
      rw [groupStep]
      split
      · rw [List.reverse_cons, List.append_assoc, List.singleton_append]
      · exact List.Sublist.append_left (List.sublist_cons_self p t) _

lemma groupBeats_append_singleton (Fs : ℕ) (peaks : List ℕ) (p : ℕ) :
    groupBeats Fs (peaks ++ [p]) =
      if groupBeats Fs peaks = [] ∨
          (3 * Fs : ℚ) / 5 < (p : ℚ) - (((groupBeats Fs peaks).getLastD 0 : ℕ) : ℚ)
        then groupBeats Fs peaks ++ [p] else groupBeats Fs peaks := by
  unfold groupBeats
  rw [List.foldl_concat]
  cases hacc : peaks.foldl (groupStep Fs) [] with
  | nil => simp [groupStep]
  | cons last t =>
    have hne : (last :: t).reverse ≠ [] := by simp
    have hlast : ((last :: t).reverse).getLastD 0 = last := by
      rw [List.getLastD_eq_getLast?, List.getLast?_reverse]; rfl
    rw [groupStep, hlast]
    by_cases hlt : (3 * Fs : ℚ) / 5 < (p : ℚ) - (last : ℚ)
    · rw [if_pos hlt, if_pos (Or.inr hlt), List.reverse_cons]
    · rw [if_neg hlt, if_neg]
      rintro (h1 | h2)
      · exact hne h1
      · exact hlt h2

/-! ### Peak-detection lemmas -/

lemma getD_range_map {α : Type} (f : ℕ → α) (dflt : α) (n k : ℕ) (h : k < n) :
    ((List.range n).map f).getD k dflt = f k := by
  rw [List.getD_eq_getElem?_getD, List.getElem?_map, List.getElem?_range h]
  rfl

lemma getD_out_of_range {α : Type} (l : List α) (k : ℕ) (dflt : α)
    (h : l.length ≤ k) : l.getD k dflt = dflt := by
  rw [List.getD_eq_getElem?_getD, List.getElem?_eq_none h]
  rfl

lemma natDist_comm (a b : ℕ) : natDist a b = natDist b a := by
  unfold natDist
  omega

lemma length_suppressAround (peaks : List ℕ) (d j : ℕ) (keep : List Bool) :
    (suppressAround peaks d j keep).length = keep.length := by
  simp [suppressAround]

lemma getD_suppressAround (peaks : List ℕ) (d j k : ℕ) (keep : List Bool)
    (hk : k < keep.length) :
    (suppressAround peaks d j keep).getD k true =
      if k ≠ j ∧ natDist (peaks.getD k 0) (peaks.getD j 0) < d then false
      else keep.getD k true := by
  unfold suppressAround
  rw [getD_range_map _ _ _ _ hk]

lemma mono_suppressAround (peaks : List ℕ) (d j k : ℕ) (keep : List Bool) :
    (suppressAround peaks d j keep).getD k true = true →
    keep.getD k true = true := by
  by_cases hk : k < keep.length
  · rw [getD_suppressAround peaks d j k keep hk]
    split
    · intro h
      exact absurd h (by simp)
    · exact id
  · intro _
    exact getD_out_of_range keep k true (le_of_not_lt hk)

lemma length_distStep (peaks : List ℕ) (d : ℕ) (keep : List Bool) (j : ℕ) :
    (distStep peaks d keep j).length = keep.length := by
  unfold distStep
  split
  · exact length_suppressAround peaks d j keep
  · rfl

lemma mono_distStep (peaks : List ℕ) (d : ℕ) (keep : List Bool) (j k : ℕ) :
    (distStep peaks d keep j).getD k true = true → keep.getD k true = true := by
  unfold distStep
  split
  · exact mono_suppressAround peaks d j k keep
  · exact id

lemma length_foldl_dist (peaks : List ℕ) (d : ℕ) (l : List ℕ) :
    ∀ keep : List Bool, (l.foldl (distStep peaks d) keep).length = keep.length := by
  induction l with
  | nil => intro keep; rfl
  | cons o rest ih =>
    intro keep
    rw [List.foldl_cons, ih, length_distStep]

lemma mono_foldl_dist (peaks : List ℕ) (d : ℕ) (l : List ℕ) :
    ∀ (keep : List Bool) (k : ℕ),
      (l.foldl (distStep peaks d) keep).getD k true = true →
      keep.getD k true = true := by
  induction l with
  | nil => intro keep k h; exact h
  | cons o rest ih =>
    intro keep k h
    rw [List.foldl_cons] at h
    exact mono_distStep peaks d keep o k (ih _ k h)

lemma foldl_dist_not_both (peaks : List ℕ) (d : ℕ) (l : List ℕ) :
    ∀ (keep : List Bool) (j k : ℕ), j ∈ l → j ≠ k → k < keep.length →
      natDist (peaks.getD k 0) (peaks.getD j 0) < d →
      ¬((l.foldl (distStep peaks d) keep).getD j true = true ∧
        (l.foldl (distStep peaks d) keep).getD k true = true) := by
  induction l with
  | nil => intro keep j k hj; exact absurd hj (List.not_mem_nil j)
  | cons o rest ih =>
    intro keep j k hj hjk hk hdist hboth
    rw [List.foldl_cons] at hboth
    rcases List.mem_cons.mp hj with rfl | hjr
    · by_cases hkj : keep.getD j true = true
      · have hstep : distStep peaks d keep j = suppressAround peaks d j keep := by
          unfold distStep
          rw [if_pos hkj]
        have hkfalse : (distStep peaks d keep j).getD k true = false := by
          rw [hstep, getD_suppressAround peaks d j k keep hk,
            if_pos ⟨Ne.symm hjk, hdist⟩]
        have h2 := mono_foldl_dist peaks d rest _ k hboth.2
        rw [hkfalse] at h2
        exact absurd h2 (by simp)
      · have hstep : distStep peaks d keep j = keep := by
          unfold distStep
          rw [if_neg hkj]
        have h1 := mono_foldl_dist peaks d rest _ j hboth.1
        rw [hstep] at h1
        exact hkj h1
    · exact ih (distStep peaks d keep o) j k hjr hjk
        (by rw [length_distStep]; exact hk) hdist hboth

lemma mem_insertAsc (pri : List ℚ) (j a : ℕ) (l : List ℕ) :
    a ∈ insertAsc pri j l ↔ a = j ∨ a ∈ l := by
  induction l with
  | nil => simp [insertAsc]
  | cons k t ih =>
    unfold insertAsc
    split
    · simp [List.mem_cons]
    · rw [List.mem_cons, ih, List.mem_cons]
      tauto

lemma mem_foldl_insert (pri : List ℚ) (l : List ℕ) :
    ∀ (acc : List ℕ) (j : ℕ), j ∈ acc ∨ j ∈ l →
      j ∈ l.foldl (fun acc j => insertAsc pri j acc) acc := by
  induction l with
  | nil =>
    intro acc j h
    rcases h with h | h
    · exact h
    · exact absurd h (List.not_mem_nil j)
  | cons o rest ih =>
    intro acc j h
    rw [List.foldl_cons]
    apply ih
    rcases h with h | h
    · exact Or.inl ((mem_insertAsc pri o j acc).mpr (Or.inr h))
    · rcases List.mem_cons.mp h with rfl | h2
      · exact Or.inl ((mem_insertAsc pri j j acc).mpr (Or.inl rfl))
      · exact Or.inr h2

lemma mem_argsort_rev (pri : List ℚ) (j : ℕ) (h : j < pri.length) :
    j ∈ (argsortAsc pri).reverse := by
  rw [List.mem_reverse]
  unfold argsortAsc
  exact mem_foldl_insert pri _ [] j (Or.inr (List.mem_range.mpr h))

lemma select_not_both (peaks : List ℕ) (pri : List ℚ) (d : ℕ) (j k : ℕ)
    (hpri : pri.length = peaks.length)
    (hj : j < peaks.length) (hk : k < peaks.length) (hjk : j ≠ k)
    (hdist : natDist (peaks.getD k 0) (peaks.getD j 0) < d) :
    ¬((selectByPeakDistance peaks pri d).getD j true = true ∧
      (selectByPeakDistance peaks pri d).getD k true = true) := by
  unfold selectByPeakDistance
  apply foldl_dist_not_both peaks d _ _ j k
  · exact mem_argsort_rev pri j (by rw [hpri]; exact hj)
  · exact hjk
  · rw [List.length_replicate]; exact hk
  · exact hdist

lemma keepFilter_sublist (ps : List ℕ) :
    ∀ bs : List Bool, List.Sublist (keepFilter ps bs) ps := by
  induction ps with
  | nil => intro bs; cases bs <;> exact List.nil_sublist _
  | cons p pt ih =>
    intro bs
    cases bs with
    | nil => exact List.nil_sublist _
    | cons bb bt =>
      unfold keepFilter
      split
      · exact (ih bt).cons₂ p
      · exact (ih bt).cons p

lemma mem_keepFilter (ps : List ℕ) :
    ∀ (bs : List Bool) (q : ℕ), q ∈ keepFilter ps bs →
      ∃ i, i < ps.length ∧ ps.getD i 0 = q ∧ bs.getD i true = true := by
  induction ps with
  | nil => intro bs q h; cases bs <;> exact absurd h (List.not_mem_nil q)
  | cons p pt ih =>
    intro bs q h
    cases bs with
    | nil => exact absurd h (List.not_mem_nil q)
    | cons bb bt =>
      unfold keepFilter at h
      by_cases hb : bb = true
      · rw [if_pos hb] at h
        rcases List.mem_cons.mp h with rfl | h2
        · exact ⟨0, by simp, List.getD_cons_zero, by simpa using hb⟩
        · obtain ⟨i, hi, hgi, hbi⟩ := ih bt q h2
          exact ⟨i + 1, by simpa using hi, by rw [List.getD_cons_succ]; exact hgi,
            by rw [List.getD_cons_succ]; exact hbi⟩
      · rw [if_neg hb] at h
        obtain ⟨i, hi, hgi, hbi⟩ := ih bt q h
        exact ⟨i + 1, by simpa using hi, by rw [List.getD_cons_succ]; exact hgi,
          by rw [List.getD_cons_succ]; exact hbi⟩

lemma plateauEnd_ge (x : List ℚ) (iMax : ℕ) (v : ℚ) :
    ∀ fuel j : ℕ, j ≤ plateauEnd x iMax v fuel j := by
  intro fuel
  induction fuel with
  | zero => intro j; exact le_refl j
  | succ f ih =>
    intro j
    unfold plateauEnd
    split
    · exact le_trans (Nat.le_succ j) (ih (j + 1))
    · exact le_refl j

lemma localMaximaAux_ge (x : List ℚ) (iMax : ℕ) :
    ∀ fuel i m : ℕ, m ∈ localMaximaAux x iMax fuel i → i ≤ m := by
  intro fuel
  induction fuel with
  | zero => intro i m h; exact absurd h (List.not_mem_nil m)
  | succ f ih =>
    intro i m h
    unfold localMaximaAux at h
    by_cases h1 : i < iMax
    · rw [if_pos h1] at h
      by_cases h2 : x.getD (i - 1) 0 < x.getD i 0
      · rw [if_pos h2] at h
        have hA : i + 1 ≤ plateauEnd x iMax (x.getD i 0) x.length (i + 1) :=
          plateauEnd_ge x iMax _ x.length (i + 1)
        by_cases h3 :
            x.getD (plateauEnd x iMax (x.getD i 0) x.length (i + 1)) 0 < x.getD i 0
        · rw [if_pos h3] at h
          rcases List.mem_cons.mp h with rfl | h4
          · omega
          · have h5 := ih _ m h4
            omega
        · rw [if_neg h3] at h
          have h5 := ih _ m h
          omega
      · rw [if_neg h2] at h
        have h5 := ih _ m h
        omega
    · rw [if_neg h1] at h
      exact absurd h (List.not_mem_nil m)

lemma localMaximaAux_sorted (x : List ℚ) (iMax : ℕ) :
    ∀ fuel i : ℕ, List.Pairwise (· < ·) (localMaximaAux x iMax fuel i) := by
  intro fuel
  induction fuel with
  | zero => intro i; exact List.Pairwise.nil
  | succ f ih =>
    intro i
    unfold localMaximaAux
    by_cases h1 : i < iMax
    · rw [if_pos h1]
      by_cases h2 : x.getD (i - 1) 0 < x.getD i 0
      · rw [if_pos h2]
        have hA : i + 1 ≤ plateauEnd x iMax (x.getD i 0) x.length (i + 1) :=
          plateauEnd_ge x iMax _ x.length (i + 1)
        by_cases h3 :
            x.getD (plateauEnd x iMax (x.getD i 0) x.length (i + 1)) 0 < x.getD i 0
        · rw [if_pos h3]
          apply List.Pairwise.cons
          · intro m hm
            have h4 := localMaximaAux_ge x iMax f _ m hm
            omega
          · exact ih _
        · rw [if_neg h3]
          exact ih (i + 1)
      · rw [if_neg h2]
        exact ih (i + 1)
    · rw [if_neg h1]
      exact List.Pairwise.nil

lemma localMaxima_sorted (x : List ℚ) : List.Pairwise (· < ·) (localMaxima x) :=
  localMaximaAux_sorted x (x.length - 1) x.length 1

lemma findPeaks_sorted (x : List ℚ) (h : ℚ) (d : ℕ) :
    List.Pairwise (· < ·) (findPeaks x h d) := by
  unfold findPeaks
  exact List.Pairwise.sublist
    ((keepFilter_sublist _ _).trans (List.filter_sublist _))
    (localMaxima_sorted x)

lemma findPeaks_height (x : List ℚ) (h : ℚ) (d : ℕ) :
    ∀ p ∈ findPeaks x h d, h ≤ x.getD p 0 := by
  intro p hp
  unfold findPeaks at hp
  have h1 : p ∈ heightPeaks x h := (keepFilter_sublist _ _).subset hp
  have h2 := (List.mem_filter.mp h1).2
  simpa using h2

lemma findPeaks_gap (x : List ℚ) (h : ℚ) (d : ℕ) :
    ∀ p ∈ findPeaks x h d, ∀ q ∈ findPeaks x h d, p ≠ q → d ≤ natDist p q := by
  intro p hp q hq hpq
  by_contra hlt
  push_neg at hlt
  unfold findPeaks at hp hq
  obtain ⟨i, hi, hgi, hbi⟩ := mem_keepFilter _ _ p hp
  obtain ⟨i', hi', hgi', hbi'⟩ := mem_keepFilter _ _ q hq
  have hii' : i ≠ i' := by
    intro hEq
    apply hpq
    rw [← hgi, ← hgi', hEq]
  refine select_not_both (heightPeaks x h)
    ((heightPeaks x h).map (fun p => x.getD p 0)) d i i'
    (List.length_map _ _) hi hi' hii' ?_ ⟨hbi, hbi'⟩
  rw [hgi, hgi', natDist_comm]
  exact hlt

lemma findPeaks_chain (x : List ℚ) (h : ℚ) (d : ℕ) :
    List.Chain' (fun p q => p + d ≤ q) (findPeaks x h d) := by
  have hs := findPeaks_sorted x h d
  have hpw : List.Pairwise (fun p q => p + d ≤ q) (findPeaks x h d) := by
    apply List.Pairwise.imp_of_mem ?_ hs
    intro a b ha hb hab
    have hgap := findPeaks_gap x h d a ha b hb (Nat.ne_of_lt hab)
    unfold natDist at hgap
    omega
  exact hpw.chain'

/-! ### Length lemmas -/

lemma lfilterAux_length (b a : List ℚ) (l : List ℚ) :
    ∀ xsRev ysRev : List ℚ,
      (lfilterAux b a xsRev ysRev l).length = ysRev.length + l.length := by
  induction l with
  | nil => intro xsRev ysRev; simp [lfilterAux]
  | cons xn rest ih =>
    intro xsRev ysRev
    rw [lfilterAux]
    rw [ih]
    simp only [List.length_cons]
    omega

lemma lfilter_length (b a x : List ℚ) : (lfilter b a x).length = x.length := by
  unfold lfilter
  rw [lfilterAux_length]
  simp

lemma oddExt_length (x : List ℚ) (p : ℕ) :
    (oddExt x p).length = p + x.length + p := by
  unfold oddExt
  simp
  omega

lemma filtfiltModel_some_length (b a x r : List ℚ)
    (h : filtfiltModel b a x = some r) : r.length = x.length := by
  unfold filtfiltModel at h
  by_cases hlen : x.length ≤ 3 * max a.length b.length
  · rw [if_pos hlen] at h; exact absurd h (by simp)
  · rw [if_neg hlen] at h
    simp only [Option.some.injEq] at h
    subst h
    rw [List.length_take, List.length_drop, List.length_reverse, lfilter_length,
      List.length_reverse, lfilter_length, oddExt_length]
    omega

lemma filterStep_length (b a y : List ℚ) : (filterStep b a y).length = y.length := by
  unfold filterStep
  cases hm : filtfiltModel b a y with
  | none => exact lfilter_length b a y
  | some r => exact filtfiltModel_some_length b a y r hm

lemma convolveFull_length (u v : List ℚ) :
    (convolveFull u v).length = u.length + v.length - 1 := by
  unfold convolveFull
  simp

lemma convolveSame_length (u v : List ℚ) (hu : 1 ≤ u.length) (hv : 1 ≤ v.length) :
    (convolveSame u v).length = max u.length v.length := by
  unfold convolveSame
  rw [List.length_take, List.length_drop, convolveFull_length]
  omega

lemma windowLen_pos (Fs : ℕ) : 1 ≤ windowLen Fs := by
  unfold windowLen
  simp only []
  split <;> omega

lemma smoothEnv_length (Fs : ℕ) (env : List ℚ) (h : env ≠ []) :
    (smoothEnv Fs env).length = max env.length (windowLen Fs) := by
  unfold smoothEnv
  rw [convolveSame_length]
  · rw [List.length_replicate]
  · exact Nat.one_le_iff_ne_zero.mpr (by simpa [List.length_eq_zero] using h)
  · rw [List.length_replicate]; exact windowLen_pos Fs

lemma preNormalize_length (y : List ℚ) : (preNormalize y).length = y.length := by
  unfold preNormalize
  split <;> simp

lemma normalize_length (y : List ℚ) : (normalize y).length = y.length := by
  unfold normalize
  rw [List.length_map, preNormalize_length]

lemma normalize_replicate_zero (n : ℕ) (hn : 0 < n) :
    normalize (List.replicate n 0) = List.replicate n 1 := by
  have h0 : maxAbs (List.replicate n (0 : ℚ)) = 0 := maxAbs_replicate_zero n
  have hpre : preNormalize (List.replicate n 0) = List.replicate n epsSilence := by
    unfold preNormalize
    rw [if_pos h0, List.map_replicate]
    norm_num
  have h1 : maxAbs (List.replicate n epsSilence) = epsSilence := by
    unfold maxAbs
    rw [List.map_replicate, abs_of_pos epsSilence_pos]
    exact foldr_max_replicate n epsSilence epsSilence_pos.le hn
  unfold normalize
  rw [hpre, h1, List.map_replicate, div_self (ne_of_gt epsSilence_pos)]

/-! ## Claim theorems -/

/-- C2: for every input waveform whose peak absolute amplitude is
nonzero, the normalizer divides every sample by that peak (and, being
a total function, never fails), and the normalized output's peak
absolute amplitude equals exactly 1. -/
theorem normalize_nonsilent (y : List ℚ) (h : maxAbs y ≠ 0) :
    normalize y = y.map (fun v => v / maxAbs y) ∧ maxAbs (normalize y) = 1 := by
  have hp : 0 < maxAbs y := lt_of_le_of_ne (maxAbs_nonneg y) (Ne.symm h)
  have hpre : preNormalize y = y := by unfold preNormalize; rw [if_neg h]
  refine ⟨?_, ?_⟩
  · unfold normalize; rw [hpre]
  · unfold normalize
    rw [hpre, maxAbs_map_div y _ hp, div_self h]

/-- C2 witness: the waveform `[2]` has nonzero peak `2` and its
normalization has peak absolute amplitude `1`. -/
theorem normalize_nonsilent_witness :
    maxAbs [(2 : ℚ)] ≠ 0 ∧ maxAbs (normalize [(2 : ℚ)]) = 1 :=
  ⟨by norm_num [maxAbs, max_def],
    (normalize_nonsilent [(2 : ℚ)] (by norm_num [maxAbs, max_def])).2⟩

/-- C3 counterexample: for the all-zero waveform `[0, 0]` the
normalizer returns `[1, 1]` — samples equal to `1`, not negligibly
small, refuting "every sample of the normalized waveform is
negligibly small". -/
theorem normalize_silent_not_near_zero :
    normalize [(0 : ℚ), 0] = [1, 1] ∧
      ¬ (∀ v ∈ normalize [(0 : ℚ), 0], |v| ≤ 1 / 1000) := by
  have key : normalize [(0 : ℚ), 0] = [1, 1] := by
    have h := normalize_replicate_zero 2 (by norm_num)
    simpa [List.replicate] using h
  refine ⟨key, ?_⟩
  intro hall
  have h1 := hall 1 (by rw [key]; simp)
  norm_num at h1

/-- C3 amended: for an all-zero input waveform the normalization step
(a total function, so no division error) produces a finite output in
which every sample equals exactly 1: the `1e-12` offset is divided by
the recomputed peak `1e-12`, giving an all-ones waveform rather than
a near-zero one. -/
theorem normalize_silent_all_ones (n : ℕ) (hn : 0 < n) :
    normalize (List.replicate n 0) = List.replicate n 1 :=
  normalize_replicate_zero n hn

/-- C3 amended, witness: the two-sample silent waveform normalizes to
`[1, 1]`. -/
theorem normalize_silent_all_ones_witness :
    normalize (List.replicate 2 0) = List.replicate 2 1 :=
  normalize_silent_all_ones 2 (by norm_num)

/-- C4: whenever the zero-phase filter application fails, the
pipeline falls back to a single forward pass with the same
coefficients (both `filterStep` branches take the same `b`, `a`),
no error surfaces (`filterStep` is total), the computation is a pure
function of the input (deterministic), and the failure happens
exactly when the signal is not longer than the filter-dependent pad
length `3 * max (len a) (len b)`. -/
theorem filter_fallback (b a y : List ℚ) :
    ((filtfiltModel b a y).isSome = false → filterStep b a y = lfilter b a y) ∧
    ((filtfiltModel b a y).isSome = false ↔
      y.length ≤ 3 * max a.length b.length) := by
  unfold filterStep filtfiltModel
  by_cases hlen : y.length ≤ 3 * max a.length b.length
  · rw [if_pos hlen]
    exact ⟨fun _ => rfl, by simpa using hlen⟩
  · rw [if_neg hlen]
    exact ⟨fun h => by simp at h, by simpa using hlen⟩

/-- C4 witness: the two-sample signal is shorter than the pad length
`3` of the trivial coefficients `b = a = [1]`, so the zero-phase
branch fails and the output is the single forward pass. -/
theorem filter_fallback_witness :
    (filtfiltModel [1] [1] [(1 : ℚ), 2]).isSome = false ∧
      filterStep [1] [1] [(1 : ℚ), 2] = lfilter [1] [1] [(1 : ℚ), 2] :=
  ⟨by decide, (filter_fallback [1] [1] [(1 : ℚ), 2]).1 (by decide)⟩

/-- C5 counterexample: at sample rate 30 the code's window length is
`int(30 * 0.05) = 1`, while `round(30 * 0.05) = round(1.5) = 2`
(under round-half-up as well as Python's round-half-even), so the
window is not `round(Fs * 0.05)`. -/
theorem windowLen_not_round :
    (windowLen 30 : ℤ) ≠ max 1 (round ((30 : ℚ) * (5 / 100))) := by
  have h1 : windowLen 30 = 1 := rfl
  have h2 : round ((30 : ℚ) * (5 / 100)) = 2 := by
    have h3 : (30 : ℚ) * (5 / 100) + 1 / 2 = ((2 : ℤ) : ℚ) := by norm_num
    rw [round_eq, h3, Int.floor_intCast]
  rw [h1, h2]
  norm_num

/-- C5 amended: for every sample rate `Fs` the moving-average window
length is `⌊Fs * 0.05⌋` (truncation, as `int()` does for these
nonnegative products), with a minimum of 1 sample. -/
theorem windowLen_floor (Fs : ℕ) :
    windowLen Fs = max 1 (Nat.floor ((Fs : ℚ) * (5 / 100))) ∧
      1 ≤ windowLen Fs := by
  refine ⟨?_, windowLen_pos Fs⟩
  have h1 : (Fs : ℚ) * (5 / 100) = (Fs : ℚ) / 20 := by ring
  have h2 : Nat.floor ((Fs : ℚ) / 20) = Fs / 20 := by
    rw [show ((20 : ℚ)) = ((20 : ℕ) : ℚ) by norm_num, Nat.floor_div_nat,
      Nat.floor_natCast]
  rw [h1, h2]
  unfold windowLen
  simp only []
  split <;> omega

/-- C7: iterating the raw peaks in ascending order, a peak is
appended to the grouped beats iff no beat is kept yet or it lies
strictly more than `0.6 * Fs` after the most recently kept beat
(the append equation); consequently consecutive grouped beats are
strictly more than `0.6 * Fs` apart, and the first peak is always
kept as the first grouped beat. -/
theorem groupBeats_greedy_spacing (Fs : ℕ) (peaks : List ℕ) (p : ℕ) :
    (groupBeats Fs (peaks ++ [p]) =
      if groupBeats Fs peaks = [] ∨
          (3 * Fs : ℚ) / 5 < (p : ℚ) - (((groupBeats Fs peaks).getLastD 0 : ℕ) : ℚ)
        then groupBeats Fs peaks ++ [p] else groupBeats Fs peaks) ∧
    List.Chain' (fun (q r : ℕ) => (3 * Fs : ℚ) / 5 < (r : ℚ) - (q : ℚ))
      (groupBeats Fs peaks) ∧
    (peaks ≠ [] → (groupBeats Fs peaks).head? = peaks.head?) := by
  refine ⟨groupBeats_append_singleton Fs peaks p, ?_, ?_⟩
  · unfold groupBeats
    rw [List.chain'_reverse]
    exact chain_foldl_group Fs peaks [] List.chain'_nil
  · intro h
    obtain ⟨q, rest, rfl⟩ := List.exists_cons_of_ne_nil h
    unfold groupBeats
    rw [List.head?_reverse, List.foldl_cons, groupStep_nil,
      getLast_foldl_group Fs rest q []]
    rfl

/-- C7 witness: grouping `[1, 8]` at `Fs = 10` keeps both peaks
(gap `7 > 6`), matching the append characterization. -/
theorem groupBeats_greedy_spacing_witness :
    groupBeats 10 ([1] ++ [8]) =
      (if groupBeats 10 [1] = [] ∨
          (3 * 10 : ℚ) / 5 < (8 : ℚ) - (((groupBeats 10 [1]).getLastD 0 : ℕ) : ℚ)
        then groupBeats 10 [1] ++ [8] else groupBeats 10 [1]) :=
  (groupBeats_greedy_spacing 10 [1] 8).1

/-- C8: the grouping step only drops peaks: the grouped beats are a
subsequence of the raw peak sequence, so the grouped beat count never
exceeds the raw peak count. -/
theorem groupBeats_sublist_count (Fs : ℕ) (peaks : List ℕ) :
    List.Sublist (groupBeats Fs peaks) peaks ∧
      (groupBeats Fs peaks).length ≤ peaks.length := by
  have h : List.Sublist (groupBeats Fs peaks) peaks := by
    have := foldl_group_sublist Fs peaks []
    simpa [groupBeats] using this
  exact ⟨h, h.length_le⟩

/-- C10: `safe_session_id` rejects (raises `ValueError`, modelled as
`none`) exactly the empty id and any id containing a character
outside `0-9a-f`; an accepted id is returned unchanged, and therefore
contains no slash, backslash or dot. -/
theorem safe_session_id_spec (sid : String) :
    (safe_session_id sid = none ↔ sid = "" ∨ ∃ c ∈ sid.data, c ∉ hexDigits) ∧
    (safe_session_id sid ≠ none → safe_session_id sid = some sid) ∧
    (safe_session_id sid = some sid →
      ∀ c ∈ sid.data, c ≠ '/' ∧ c ≠ '\\' ∧ c ≠ '.') := by
  have hhex : ∀ c ∈ hexDigits, c ≠ '/' ∧ c ≠ '\\' ∧ c ≠ '.' := by decide
  unfold safe_session_id
  by_cases h0 : sid = ""
  · subst h0
    refine ⟨by simp, by simp, ?_⟩
    intro h
    simp at h
  · rw [if_neg h0]
    by_cases hall : sid.data.all (fun c => hexDigits.contains c) = true
    · rw [if_pos hall]
      rw [List.all_eq_true] at hall
      refine ⟨?_, fun _ => rfl, ?_⟩
      · simp only [reduceCtorEq, false_iff]
        push_neg
        refine ⟨h0, fun c hc => ?_⟩
        have := hall c hc
        simpa [List.contains, List.elem_iff] using this
      · intro _ c hc
        exact hhex c (by simpa [List.contains, List.elem_iff] using hall c hc)
    · rw [if_neg hall]
      refine ⟨?_, fun h => absurd rfl h, fun h => absurd h (by simp)⟩
      simp only [true_iff]
      right
      rw [List.all_eq_true] at hall
      push_neg at hall
      obtain ⟨c, hc, hmem⟩ := hall
      exact ⟨c, hc, by simpa [List.contains, List.elem_iff] using hmem⟩

/-- C10 witness: the hex id `"ab"` is accepted unchanged. -/
theorem safe_session_id_spec_witness : safe_session_id "ab" = some "ab" :=
  (safe_session_id_spec "ab").2.1 (by decide)

/-- C1: for every analyzed waveform of `n ≥ 1` samples at sample rate
`Fs > 0`, the `bpm` field of the result record is the pre-rounding
value `grouped_beat_count / (duration / 60)` (with
`duration = n / Fs`) rounded to one decimal place, and the rate
estimator returns 0 when the duration is 0. -/
theorem bpm_field_eq_formula (envOf : List ℚ → List ℚ) (b a y0 : List ℚ)
    (Fs : ℕ) (hn : 1 ≤ y0.length) (hFs : 0 < Fs) :
    ((process envOf b a y0 Fs).bpm =
      roundTo 1 (((process envOf b a y0 Fs).beats_grouped : ℚ) /
        (((y0.length : ℚ) / (Fs : ℚ)) / 60))) ∧
    ∀ c : ℕ, bpmOf c 0 = 0 := by
  constructor
  · have hd : (0 : ℚ) < (y0.length : ℚ) / (Fs : ℚ) := by
      apply div_pos
      · exact_mod_cast hn
      · exact_mod_cast hFs
    simp only [process, normalize_length]
    rw [bpmOf, if_pos hd]
  · intro c
    simp [bpmOf]

/-- C1 witness: at the one-sample waveform `[1]`, `Fs = 10`, trivial
coefficients and the magnitude envelope, the record's `bpm` field
equals the rounded rate formula. -/
theorem bpm_field_eq_formula_witness :
    (process (fun z => z.map (fun v => |v|)) [1] [1] [(1 : ℚ)] 10).bpm =
      roundTo 1
        (((process (fun z => z.map (fun v => |v|)) [1] [1] [(1 : ℚ)] 10).beats_grouped : ℚ) /
          ((([(1 : ℚ)].length : ℚ) / (10 : ℚ)) / 60)) :=
  (bpm_field_eq_formula (fun z => z.map (fun v => |v|)) [1] [1] [(1 : ℚ)] 10
    (by simp) (by norm_num)).1

/-- C9 counterexample: a 10-sample waveform at 1000 Hz (scenario C of
the spec) yields a smoothed envelope of length 50, not 10:
`np.convolve(env, ones(50)/50, mode="same")` returns
`max(len(env), 50)` samples, so envelope length is not preserved. -/
theorem smooth_length_counterexample :
    (smoothEnv 1000 ((filterStep [1] [1] (List.replicate 10 (1 : ℚ))).map
        (fun v => |v|))).length ≠ (List.replicate 10 (1 : ℚ)).length := by
  have h1 : ((filterStep [1] [1] (List.replicate 10 (1 : ℚ))).map
      (fun v => |v|)).length = 10 := by
    rw [List.length_map, filterStep_length, List.length_replicate]
  have h2 : (filterStep [1] [1] (List.replicate 10 (1 : ℚ))).map
      (fun v => |v|) ≠ [] := by
    intro h
    rw [h] at h1
    simp at h1
  rw [smoothEnv_length _ _ h2, h1, List.length_replicate]
  have h3 : windowLen 1000 = 50 := rfl
  rw [h3]
  norm_num

/-- C9 amended: for any nonempty input waveform and any envelope
transform that preserves length (the documented contract of the
Hilbert magnitude), the filtered waveform has exactly the input's
length on both the zero-phase and the fallback path, while the
smoothed envelope has length `max n window_len` — which equals `n`
exactly when the input is at least one smoothing window long. -/
theorem length_preservation (envOf : List ℚ → List ℚ)
    (hEnv : ∀ z, (envOf z).length = z.length) (b a y : List ℚ) (Fs : ℕ)
    (hy : y ≠ []) :
    (filterStep b a y).length = y.length ∧
    (smoothEnv Fs (envOf (filterStep b a y))).length =
      max y.length (windowLen Fs) := by
  refine ⟨filterStep_length b a y, ?_⟩
  have h1 : (envOf (filterStep b a y)).length = y.length := by
    rw [hEnv, filterStep_length]
  have h2 : envOf (filterStep b a y) ≠ [] := by
    intro h
    rw [h] at h1
    exact hy (List.length_eq_zero.mp h1.symm)
  rw [smoothEnv_length Fs _ h2, h1]

/-- C9 amended, witness: on the one-sample waveform at `Fs = 10` the
filtered output has length 1 and the smoothed envelope has length
`max 1 (windowLen 10) = 1`. -/
theorem length_preservation_witness :
    (filterStep [1] [1] [(1 : ℚ)]).length = [(1 : ℚ)].length ∧
      (smoothEnv 10 ((filterStep [1] [1] [(1 : ℚ)]).map (fun v => |v|))).length =
        max [(1 : ℚ)].length (windowLen 10) :=
  length_preservation (fun z => z.map (fun v => |v|)) (fun z => by simp)
    [1] [1] [(1 : ℚ)] 10 (by simp)

/-- C6 counterexample: at `Fs = 11` the detector is called with
`distance = int(0.2 * 11) = 2`, and on the envelope
`[0, 10, 0, 10, 0]` it retains the peaks 1 and 3, whose separation 2
is smaller than `0.2 * 11 = 2.2` — so consecutive raw peaks are not
always at least `0.2 * Fs` samples apart. -/
theorem detect_spacing_counterexample :
    detectPeaks 11 [(0 : ℚ), 10, 0, 10, 0] = [1, 3] ∧
      ¬ ((11 : ℚ) / 5 ≤ ((3 : ℕ) : ℚ) - ((1 : ℕ) : ℚ)) := by
  have hmax : maxList [(0 : ℚ), 10, 0, 10, 0] = 10 := by
    norm_num [maxList, max_def]
  have hthr : 3 / 10 * maxList [(0 : ℚ), 10, 0, 10, 0] = 3 := by
    rw [hmax]; norm_num
  constructor
  · unfold detectPeaks
    rw [hthr]
    decide
  · push_cast
    norm_num

/-- C6 amended: for every envelope and every sample rate `Fs`, any
two consecutive detected raw peaks are separated by at least
`⌊0.2 * Fs⌋` samples (the integer truncation `int(0.2 * Fs)` actually
passed to the detector), and every retained peak's envelope value is
at least `0.3` times the maximum envelope value. -/
theorem detect_peaks_spacing_height (Fs : ℕ) (env : List ℚ) :
    List.Chain' (fun p q => p + Fs / 5 ≤ q) (detectPeaks Fs env) ∧
    ∀ p ∈ detectPeaks Fs env, 3 / 10 * maxList env ≤ env.getD p 0 := by
  unfold detectPeaks
  exact ⟨findPeaks_chain env _ (Fs / 5), findPeaks_height env _ (Fs / 5)⟩

/-- C6 amended, witness: on the envelope `[0, 10, 0, 10, 0]` at
`Fs = 11` the retained peak 1 carries an envelope value of at least
`0.3` times the envelope maximum. -/
theorem detect_peaks_spacing_height_witness :
    3 / 10 * maxList [(0 : ℚ), 10, 0, 10, 0] ≤
      [(0 : ℚ), 10, 0, 10, 0].getD 1 0 := by
  apply (detect_peaks_spacing_height 11 [(0 : ℚ), 10, 0, 10, 0]).2 1
  have hmax : maxList [(0 : ℚ), 10, 0, 10, 0] = 10 := by
    norm_num [maxList, max_def]
  have hthr : 3 / 10 * maxList [(0 : ℚ), 10, 0, 10, 0] = 3 := by
    rw [hmax]; norm_num
  unfold detectPeaks
  rw [hthr]
  decide

end Heartbeat
